import Mathlib

/-!
Verification development for the safety-checks-chat repository.

The online resolver (src/app/api/chat/route.ts), the index loader and
cosine search (src/lib/search.ts), the suggestion generator
(src/app/api/suggestions/route.ts) and the two offline index builders
(scripts/build-knowledge-bin.mjs, scripts/build-knowledge.mjs) are
shallowly embedded below.  Pure string and list manipulation is
translated to computable Lean functions; the floating-point vector
arithmetic is modelled over the real numbers (exact arithmetic, with
the Lean convention x / 0 = 0); the file-system effects of the builders
are modelled as explicit operation lists; the process-wide index cache
is modelled by explicit state passing.
-/

namespace SafetyChecks

/-! ## Data model (src/lib/search.ts: KBMeta, KBItem) -/

/-- Metadata of one fact.  All four fields are optional in the source
(`KBMeta` has every field optional), hence `Option String`. -/
structure KBMeta where
  restaurant_key : Option String
  restaurant_name : Option String
  date_iso : Option String
  type : Option String
deriving DecidableEq, Repr

/-- One fact of the knowledge base (`KBItem` in src/lib/search.ts,
built by scripts/build-knowledge-bin.mjs). -/
structure KBItem where
  id : String
  text : String
  meta : KBMeta
deriving DecidableEq, Repr

/-! ## C2: write effects of the two index builders.

The tail of `main` in each build script is modelled as the list of
file-system operations it performs on the output artifacts. -/

/-- A file-system effect: a direct write to a path, or a rename. -/
inductive FsOp where
  | write (path : String)
  | rename (src dst : String)
deriving DecidableEq, Repr

/-- Output operations of scripts/build-knowledge-bin.mjs, main, lines
158-170: `fs.writeFileSync(binPath, ...)` then
`fs.writeFileSync(metaPath, ...)`, both directly at the final paths
`data/kb.vec.bin` and `data/kb.meta.json`.  No temporary file and no
rename appears in that script. -/
def binBuilderOps : List FsOp :=
  [FsOp.write "data/kb.vec.bin", FsOp.write "data/kb.meta.json"]

/-- Output operations of scripts/build-knowledge.mjs, main, lines
194-201: `fs.writeFileSync(tmp, ...)` with
`tmp = data/knowledge.tmp.json`, then `fs.renameSync(tmp, final)` with
`final = data/knowledge.json`. -/
def jsonBuilderOps : List FsOp :=
  [FsOp.write "data/knowledge.tmp.json",
   FsOp.rename "data/knowledge.tmp.json" "data/knowledge.json"]

/-- Whether the operation list ever writes directly to path `p`. -/
def writesDirectly (ops : List FsOp) (p : String) : Bool :=
  ops.any fun op => op = FsOp.write p

/-- Whether the operation list installs path `p` by renaming some other
path onto it. -/
def renamedInto (ops : List FsOp) (p : String) : Bool :=
  ops.any fun op =>
    match op with
    | FsOp.rename src dst => dst = p && decide (src ≠ p)
    | _ => false

/-- Path `p` is atomically installed: never written directly, and put
in place by a rename from a temporary path. -/
def atomicallyInstalled (ops : List FsOp) (p : String) : Prop :=
  writesDirectly ops p = false ∧ renamedInto ops p = true

instance (ops : List FsOp) (p : String) :
    Decidable (atomicallyInstalled ops p) := by
  unfold atomicallyInstalled; infer_instance

/-! ## C8: deduplication of facts by text.

scripts/build-knowledge-bin.mjs lines 104-105 and
scripts/build-knowledge.mjs lines 133-139:
`facts.filter(f => { if (seen.has(f.text)) return false;
seen.add(f.text); return true; })` — a filter threading a `seen` set,
keeping the first occurrence of each text. -/

/-- The dedupe filter with its accumulated `seen` set made explicit. -/
def dedupeAux (seen : List String) : List KBItem → List KBItem
  | [] => []
  | f :: fs =>
    if f.text ∈ seen then dedupeAux seen fs
    else f :: dedupeAux (f.text :: seen) fs

/-- De-dupe identical text lines, as in both build scripts. -/
def dedupeByText (facts : List KBItem) : List KBItem :=
  dedupeAux [] facts

/-- Witness for C8 at a concrete input: two facts with identical text
and one with distinct text. -/
def exFactA : KBItem :=
  ⟨"row1-Opening_Check", "On 2025-09-20, restaurant 74 — Opening Check.",
    ⟨some "74", some "Grand Cafe", some "2025-09-20", some "Opening_Check"⟩⟩

def exFactB : KBItem :=
  ⟨"row2-Opening_Check", "On 2025-09-20, restaurant 74 — Opening Check.",
    ⟨some "74", some "Grand Cafe", some "2025-09-20", some "Opening_Check"⟩⟩

def exFactC : KBItem :=
  ⟨"row3-Closing_Check", "On 2025-09-21, restaurant 74 — Closing Check.",
    ⟨some "74", some "Grand Cafe", some "2025-09-21", some "Closing_Check"⟩⟩

/-! ## C3: the index loader (src/lib/search.ts, loadKBBin, lines
25-43).

The module-level cache `BIN` is modelled by explicit state passing: the
loader takes the current cache and the storage content and returns the
outcome together with the new cache.  Storage holds the parsed sidecar
(`dim`, `count`, `items`) and the float buffer (`vec`, one entry per
32-bit float of data/kb.vec.bin), with the floats as real numbers. -/

/-- The cached binary index (`KBBin` in src/lib/search.ts). -/
structure KBBin where
  dim : Nat
  count : Nat
  items : List KBItem
  vec : List ℝ

/-- What a read of data/kb.meta.json plus data/kb.vec.bin yields. -/
structure StorageKB where
  dim : Nat
  count : Nat
  items : List KBItem
  vec : List ℝ

/-- Function `loadKBBin`: return the cache if set; otherwise read storage,
validate `vec.length == count * dim`, throw on mismatch (leaving the
cache unset), and cache the structure on success. -/
def loadKBBin (cache : Option KBBin) (st : StorageKB) :
    Except String KBBin × Option KBBin :=
  match cache with
  | some b => (Except.ok b, some b)
  | none =>
    if st.vec.length = st.count * st.dim then
      let b : KBBin := ⟨st.dim, st.count, st.items, st.vec⟩
      (Except.ok b, some b)
    else
      (Except.error ("Vector file length mismatch: have " ++
        toString st.vec.length ++ ", expected " ++
        toString (st.count * st.dim)), none)

/-- A storage state whose buffer length (3) disagrees with
`count * dim` (4). -/
def badStorage : StorageKB := ⟨2, 2, [exFactA], [(1 : ℝ), 0, 0]⟩

/-- A storage state whose buffer length matches `count * dim`. -/
def goodStorage : StorageKB := ⟨2, 1, [exFactA], [(1 : ℝ), 0]⟩

/-! ## C5: the response composer's commentary tiers
(src/app/api/chat/route.ts, tailFor, lines 115-157).

`parseStatsFromText` (lines 97-109) yields five natural numbers from
the canonical sentence; the claim is conditioned on that parse
succeeding, so the tier logic is modelled directly on the parsed
`Stats` record. -/

/-- The counts parsed from a canonical fact sentence (`Stats` in
src/app/api/chat/route.ts). -/
structure Stats where
  checks : Nat
  completed : Nat
  passed : Nat
  compPct : Nat
  passPct : Nat
deriving DecidableEq, Repr

/-- Derived count `Math.max(checks - completed, 0)` — truncated subtraction on ℕ. -/
def notCompleted (s : Stats) : Nat := s.checks - s.completed

/-- Derived count `Math.max(completed - passed, 0)` — truncated subtraction on ℕ. -/
def failedOf (s : Stats) : Nat := s.completed - s.passed

/-- The `parts` list shared by the three lower tiers. -/
def gapParts (s : Stats) : List String :=
  (if 0 < notCompleted s
    then [toString (notCompleted s) ++ " not completed"] else []) ++
  (if 0 < failedOf s then [toString (failedOf s) ++ " failed"] else [])

/-- Function `tailFor`, translated branch by branch from
src/app/api/chat/route.ts lines 115-157. -/
def tailFor (s : Stats) : String :=
  if s.checks = 0 then " No checks were recorded for this entry."
  else if s.compPct = 100 ∧ s.passPct = 100 then " Well done — keep it up."
  else if s.passPct = 100 ∧ 90 ≤ s.compPct ∧ 0 < notCompleted s then
    " All checks passed; " ++ toString (notCompleted s) ++ " " ++
      (if notCompleted s = 1 then "check remains" else "checks remain") ++
      " to reach 100% completion."
  else if s.compPct = 100 ∧ 95 ≤ s.passPct ∧ 0 < failedOf s then
    " Great completion — " ++ toString (failedOf s) ++ " " ++
      (if failedOf s = 1 then "item failed" else "items failed") ++
      ". Please review and monitor."
  else if 90 ≤ s.passPct then
    " Some gaps: " ++ String.intercalate ", " (gapParts s) ++
      ". Please follow up."
  else if 70 ≤ s.passPct then
    " Noticeable issues — " ++ String.intercalate ", " (gapParts s) ++
      ". Corrective action is recommended."
  else
    " Several items did not meet standards (" ++
      String.intercalate ", " (gapParts s) ++
      "). Immediate corrective action is advised."

/-- The commentary tiers of the composer. -/
inductive Tier where
  | noChecks
  | perfect
  | allPassedRemain
  | goodCompletionFailed
  | minorGaps
  | corrective
  | urgent
deriving DecidableEq, Repr

/-- The message template of each tier (the branch bodies of
`tailFor`). -/
def tierMessage (t : Tier) (s : Stats) : String :=
  match t with
  | Tier.noChecks => " No checks were recorded for this entry."
  | Tier.perfect => " Well done — keep it up."
  | Tier.allPassedRemain =>
    " All checks passed; " ++ toString (notCompleted s) ++ " " ++
      (if notCompleted s = 1 then "check remains" else "checks remain") ++
      " to reach 100% completion."
  | Tier.goodCompletionFailed =>
    " Great completion — " ++ toString (failedOf s) ++ " " ++
      (if failedOf s = 1 then "item failed" else "items failed") ++
      ". Please review and monitor."
  | Tier.minorGaps =>
    " Some gaps: " ++ String.intercalate ", " (gapParts s) ++
      ". Please follow up."
  | Tier.corrective =>
    " Noticeable issues — " ++ String.intercalate ", " (gapParts s) ++
      ". Corrective action is recommended."
  | Tier.urgent =>
    " Several items did not meet standards (" ++
      String.intercalate ", " (gapParts s) ++
      "). Immediate corrective action is advised."

/-- The tier selection exactly as the claim words it: (a) 100/100,
(b) 100% pass with partial completion, (c) 100% completion with some
failures, (d) pass ≥ 90, (e) pass ≥ 70, (f) below 70. -/
def specTierClaim (s : Stats) : Tier :=
  if s.compPct = 100 ∧ s.passPct = 100 then Tier.perfect
  else if s.passPct = 100 ∧ 0 < notCompleted s then Tier.allPassedRemain
  else if s.compPct = 100 ∧ 0 < failedOf s then Tier.goodCompletionFailed
  else if 90 ≤ s.passPct then Tier.minorGaps
  else if 70 ≤ s.passPct then Tier.corrective
  else Tier.urgent

/-- First tier whose guard holds, defaulting to the urgent tier. -/
def firstTier : List (Bool × Tier) → Tier
  | [] => Tier.urgent
  | (c, t) :: rest => if c then t else firstTier rest

/-- The amended tier selection: the guards the code actually uses —
a leading zero-checks tier, tier (b) additionally requires completion
≥ 90 %, tier (c) additionally requires pass ≥ 95 %. -/
def specTierAmended (s : Stats) : Tier :=
  firstTier
    [(s.checks == 0, Tier.noChecks),
     (s.compPct == 100 && s.passPct == 100, Tier.perfect),
     (s.passPct == 100 && decide (90 ≤ s.compPct) &&
        decide (0 < notCompleted s), Tier.allPassedRemain),
     (s.compPct == 100 && decide (95 ≤ s.passPct) &&
        decide (0 < failedOf s), Tier.goodCompletionFailed),
     (decide (90 ≤ s.passPct), Tier.minorGaps),
     (decide (70 ≤ s.passPct), Tier.corrective)]

/-! ## C6: hint-based narrowing.

`prefilter` (src/app/api/chat/route.ts lines 178-192) and the base-set
filter of the suggestions route (src/app/api/suggestions/route.ts
lines 77-83).  The regex hint extraction (S0) is shared by the fast
path and the prefilter; its outcome is modelled as a `Hints` record:
`rid` the captured restaurant id digits, `nameGuess` the captured
restaurant name already trimmed and lower-cased, `dateGuess` the
ISO date from `toIsoDate`, `typeGuess` the detected check type. -/

/-- The optional query hints extracted from the final user message. -/
structure Hints where
  rid : Option String
  nameGuess : Option String
  dateGuess : Option String
  typeGuess : Option String
deriving DecidableEq, Repr

/-- Whether `pat` occurs at the head of `s` (character list form). -/
def leadsWith : List Char → List Char → Bool
  | [], _ => true
  | _ :: _, [] => false
  | a :: as, b :: bs => a = b && leadsWith as bs

/-- JS `s.startsWith(pat)`. -/
def strStarts (s pat : String) : Bool := leadsWith pat.toList s.toList

/-- JS `s.includes(pat)` — `pat` occurs somewhere in `s`. -/
def strIncludes (s pat : String) : Bool :=
  (List.range (s.toList.length + 1)).any fun i =>
    leadsWith pat.toList (s.toList.drop i)

/-- JS `s.toLowerCase()` on the ASCII range (the corpus restaurant
names are ASCII). -/
def lowerStr (s : String) : String := String.mk (s.toList.map Char.toLower)

/-- The per-item restaurant-id condition
(`x.meta?.restaurant_key === rid`). -/
def ridCond (h : Hints) (x : KBItem) : Bool :=
  match h.rid with
  | some r => x.meta.restaurant_key == some r
  | none => true

/-- The per-item name-substring condition
(`(x.meta?.restaurant_name ?? "").toLowerCase().includes(nameGuess)`),
guarded by the length-≥-3 check. -/
def nameCond (h : Hints) (x : KBItem) : Bool :=
  match h.nameGuess with
  | some n =>
    if 3 ≤ n.length
      then strIncludes (lowerStr (x.meta.restaurant_name.getD "")) n
      else true
  | none => true

/-- The per-item date-prefix condition
(`(x.meta?.date_iso ?? "").startsWith(dateGuess)`). -/
def dateCond (h : Hints) (x : KBItem) : Bool :=
  match h.dateGuess with
  | some d => strStarts (x.meta.date_iso.getD "") d
  | none => true

/-- The per-item type condition (`(x.meta?.type ?? "") === typeGuess`). -/
def typeCond (h : Hints) (x : KBItem) : Bool :=
  match h.typeGuess with
  | some t => x.meta.type.getD "" == t
  | none => true

/-- The suggestions route's type condition
(`x.meta?.type === typeGuess`, no `?? ""` default). -/
def suggTypeCond (h : Hints) (x : KBItem) : Bool :=
  match h.typeGuess with
  | some t => x.meta.type == some t
  | none => true

/-- Function `prefilter` from src/app/api/chat/route.ts lines 178-192: the four
filters applied in sequence.  Note the name filter is NOT guarded by
the absence of the id hint. -/
def chatPrefilter (kb : List KBItem) (h : Hints) : List KBItem :=
  let i1 := match h.rid with
    | some _ => kb.filter (fun x => ridCond h x)
    | none => kb
  let i2 := match h.nameGuess with
    | some n =>
      if 3 ≤ n.length then i1.filter (fun x => nameCond h x) else i1
    | none => i1
  let i3 := match h.dateGuess with
    | some _ => i2.filter (fun x => dateCond h x)
    | none => i2
  match h.typeGuess with
  | some _ => i3.filter (fun x => typeCond h x)
  | none => i3

/-- The base-set filter of src/app/api/suggestions/route.ts lines
77-83: type, then id, then name — the name filter only when the id
hint is absent.  (That route extracts no date hint.) -/
def suggBaseFilter (kb : List KBItem) (h : Hints) : List KBItem :=
  let i1 := match h.typeGuess with
    | some _ => kb.filter (fun x => suggTypeCond h x)
    | none => kb
  let i2 := match h.rid with
    | some _ => i1.filter (fun x => ridCond h x)
    | none => i1
  match h.rid, h.nameGuess with
  | none, some n =>
    if 3 ≤ n.length then i2.filter (fun x => nameCond h x) else i2
  | _, _ => i2

/-- The narrowing exactly as the claim words it: AND of the present
hints, with the name filter applied only when the id hint is absent. -/
def specPrefilterClaim (kb : List KBItem) (h : Hints) : List KBItem :=
  kb.filter fun x =>
    ridCond h x &&
    (match h.rid with
      | none => nameCond h x
      | some _ => true) &&
    dateCond h x && typeCond h x

/-- The narrowing of the chat route as amended: AND of the present
hints, with the name filter applied whenever the name hint is present
with length ≥ 3, regardless of the id hint. -/
def specPrefilterAmended (kb : List KBItem) (h : Hints) : List KBItem :=
  kb.filter fun x =>
    ridCond h x && nameCond h x && dateCond h x && typeCond h x

def itemC6 : KBItem :=
  ⟨"row1-Opening_Check",
    "On 2025-09-20, restaurant 123 (Grand Cafe) — Opening Check: checks=13 completed=13 passed=13 (comp=100%, pass=100%).",
    ⟨some "123", some "Grand Cafe", some "2025-09-20", some "Opening_Check"⟩⟩

/-- The hints that the message "restaurant 123" yields: the id regex
captures `123`, and the name regex captures the same characters `123`
(length 3), so both hints are present at once. -/
def hintsC6 : Hints := ⟨some "123", some "123", none, none⟩

/-! ## C4: unit-normalisation precomputation versus full cosine.

The floating-point arithmetic of the scripts and of src/lib/search.ts
is modelled over the real numbers (exact arithmetic; Lean's convention
x / 0 = 0).  `1e-9` is the epsilon guard both the builder and the
query-time similarity use. -/

/-- Dot product of two vectors (the summation loops of `cosineToUnit`
and `cosine`; both stop at the shorter length). -/
def dotR (a b : List ℝ) : ℝ := (List.zipWith (fun x y => x * y) a b).sum

/-- Euclidean norm, `Math.sqrt` of the sum of squares. -/
noncomputable def norm2 (v : List ℝ) : ℝ := Real.sqrt (dotR v v)

/-- The literal `1e-9` used in both scripts and in search.ts. -/
noncomputable def EPS : ℝ := 1 / 1000000000

/-- The builder's normalisation (scripts/build-knowledge-bin.mjs lines
127-133): every component divided by `Math.sqrt(norm) + 1e-9`. -/
noncomputable def unitNormalize (v : List ℝ) : List ℝ :=
  v.map fun x => x / (norm2 v + EPS)

/-- Function `cosineToUnit` (src/lib/search.ts lines 46-54): dot product with a
stored vector divided by the query norm plus `1e-9`. -/
noncomputable def cosineToUnit (q u : List ℝ) : ℝ :=
  dotR q u / (norm2 q + EPS)

/-- Function `cosine` of the naive implementation (src/lib/search.ts lines
104-118): dot product divided by the product of both norms plus
`1e-9`. -/
noncomputable def cosineFull (a b : List ℝ) : ℝ :=
  dotR a b / (norm2 a * norm2 b + EPS)

/-- Modelled from the spec: the epsilon-free idealised stored-vector
normalisation, `v / ‖v‖`. -/
noncomputable def unitIdeal (v : List ℝ) : List ℝ :=
  v.map fun x => x / norm2 v

/-- Modelled from the spec: the epsilon-free idealised optimised
similarity, a single dot product divided by the query's own norm. -/
noncomputable def cosineToUnitIdeal (q u : List ℝ) : ℝ :=
  dotR q u / norm2 q

/-- Modelled from the spec: the epsilon-free idealised full cosine,
`dot(q, v) / (‖q‖ · ‖v‖)`. -/
noncomputable def cosineIdeal (a b : List ℝ) : ℝ :=
  dotR a b / (norm2 a * norm2 b)

/-! ## The query-time search pipeline (src/lib/search.ts,
`topKByCosine`, lines 56-72) and the resolver stages of the chat route
(src/app/api/chat/route.ts, POST, lines 196-290).

`topKByCosine` builds an id → position map over the whole corpus
(`Map.set`, so the last occurrence of a duplicate id wins), scores each
candidate with `cosineToUnit` against the stored unit vector at its
position, sorts by score descending (the runtime's stable sort,
modelled as stable insertion sort) and takes the top k. -/

/-- The window `unitVec[base .. base+dim)` of the flat buffer. -/
def vecSlice (vec : List ℝ) (base dim : Nat) : List ℝ :=
  (vec.drop base).take dim

/-- The id → index map accumulation (`index.set(all[i].id, i)`); a
later duplicate id overwrites an earlier one, as `Map.set` does. -/
def lookupIdxAux (id : String) : List KBItem → Nat → Option Nat → Option Nat
  | [], _, acc => acc
  | it :: rest, i, acc =>
    lookupIdxAux id rest (i + 1) (if it.id = id then some i else acc)

/-- Lookup `index.get(id)` after the map was built over `items`. -/
def lookupIdx (items : List KBItem) (id : String) : Option Nat :=
  lookupIdxAux id items 0 none

/-- The score the loop of `topKByCosine` assigns to the candidate at
buffer position `i`: `cosineToUnit(queryVec, vec, i*dim, dim)`. -/
noncomputable def scoreOf (bin : KBBin) (q : List ℝ) (i : Nat) : ℝ :=
  cosineToUnit (q.take bin.dim) (vecSlice bin.vec (i * bin.dim) bin.dim)

/-- The `scored` array: candidates whose id resolves in the index map,
paired with their score (`if (idx == null) continue`). -/
noncomputable def scoreAll (bin : KBBin) (q : List ℝ)
    (items : List KBItem) : List (KBItem × ℝ) :=
  items.filterMap fun it =>
    match lookupIdx bin.items it.id with
    | some i => some (it, scoreOf bin q i)
    | none => none

/-- Stable descending insertion: the new element goes before the first
element whose score is ≤ its own, so equal scores keep original order,
as the runtime's stable `sort((a,b) => b.score - a.score)` does. -/
noncomputable def insertScored (a : KBItem × ℝ) :
    List (KBItem × ℝ) → List (KBItem × ℝ)
  | [] => [a]
  | b :: bs => if b.2 ≤ a.2 then a :: b :: bs else b :: insertScored a bs

/-- The sort `scored.sort((a,b) => (b.score ?? 0) - (a.score ?? 0))`, modelled
as the (unique) stable sort by descending score. -/
noncomputable def sortScoredDesc (l : List (KBItem × ℝ)) :
    List (KBItem × ℝ) :=
  l.foldr insertScored []

/-- Function `topKByCosine` (src/lib/search.ts lines 56-72). -/
noncomputable def topKByCosine (bin : KBBin) (q : List ℝ)
    (items : List KBItem) (k : Nat) : List (KBItem × ℝ) :=
  (sortScoredDesc (scoreAll bin q items)).take k

/-- The resolver's answer, by provenance: the deterministic summary of
an exact match (`summariseExact`), a generated completion grounded on
the top fact texts, or the terminal no-matching-record reply. -/
inductive AnswerKind where
  | exactAnswer (f : KBItem)
  | generated (context : List String)
  | noRecord
deriving DecidableEq, Repr

/-- The JSON body `{answer, used, narrowedCount}` of the chat route,
plus whether an embedding call was issued on the way. -/
structure ChatResult where
  answer : AnswerKind
  used : List String
  narrowedCount : Nat
  embedCalled : Bool
deriving DecidableEq, Repr

/-- The exact-match predicate of the fast path (route.ts lines
218-223): `restaurant_key === rid`, `date_iso.startsWith(dateIso)`,
`type === typeGuess`. -/
def exactPredB (rid d ty : String) (x : KBItem) : Bool :=
  x.meta.restaurant_key == some rid &&
  strStarts (x.meta.date_iso.getD "") d &&
  x.meta.type == some ty

/-- The fallback `narrowed.length ? narrowed : kb` — the candidate pool of the
semantic stage (route.ts line 245). -/
def chatPool (kb : List KBItem) (h : Hints) : List KBItem :=
  if (chatPrefilter kb h).length ≠ 0 then chatPrefilter kb h else kb

/-- The semantic stage of POST (route.ts lines 233-284): embed, narrow,
rank, and either answer from the top context or reply no-record with
zero evidence ids.  Reaching this stage at all means one embedding call
was issued. -/
noncomputable def chatSemantic (bin : KBBin) (h : Hints) (q : List ℝ) :
    ChatResult :=
  let narrowed := chatPrefilter bin.items h
  let top := topKByCosine bin q (chatPool bin.items h) 12
  if top.length = 0 then
    ⟨AnswerKind.noRecord, [], narrowed.length, true⟩
  else
    ⟨AnswerKind.generated (top.map fun t => t.1.text),
      top.map (fun t => t.1.id), narrowed.length, true⟩

/-- The fast-path lookup (route.ts lines 217-223): only when all three
hints are present, `kb.find(...)` — the FIRST fact satisfying the
exact-match predicate, `undefined` otherwise. -/
def fastMatch (kb : List KBItem) (h : Hints) : Option KBItem :=
  match h.rid, h.dateGuess, h.typeGuess with
  | some rid, some d, some ty => kb.find? (exactPredB rid d ty)
  | _, _, _ => none

/-- The resolver: the exact-match fast path (route.ts lines 211-231)
when all three hints are present and a fact matches — no embedding call
— otherwise the semantic stage. -/
noncomputable def chatResolve (bin : KBBin) (h : Hints) (q : List ℝ) :
    ChatResult :=
  match fastMatch bin.items h with
  | some f => ⟨AnswerKind.exactAnswer f, [f.id], 1, false⟩
  | none => chatSemantic bin h q

/-- Whether the fast path fires. -/
def fastPathHitB (kb : List KBItem) (h : Hints) : Bool :=
  (fastMatch kb h).isSome

def binC1 : KBBin := ⟨2, 1, [itemC6], [(1 : ℝ), 0]⟩

def hintsC1 : Hints :=
  ⟨some "123", none, some "2025-09-20", some "Opening_Check"⟩

def binC10 : KBBin := ⟨1, 2, [exFactA, exFactB], [(1 : ℝ), 0]⟩

def hintsC10 : Hints :=
  ⟨some "74", none, some "2025-09-20", some "Opening_Check"⟩

def hintsNone : Hints := ⟨none, none, none, none⟩

def binC7 : KBBin := ⟨2, 1, [exFactA], [(-1 : ℝ), 0]⟩

def binEmpty : KBBin := ⟨2, 0, [], []⟩

/-! ## C9: the suggestion generator
(src/app/api/suggestions/route.ts, POST, lines 64-124).

The route filters the corpus by the request hints (`suggBaseFilter`
above, falling back to the full corpus when empty), keeps items whose
metadata has all of date (length ≥ 10), type and restaurant key, sorts
newest-first (the runtime's stable sort with comparator
`a.date_iso < b.date_iso ? 1 : -1`, modelled as stable insertion sort
by descending date), then emits one deduplicated prompt per preferred
type followed by a most-recent-first backfill, stopping at `limit`
(request field, default 7). -/

/-- Predicate `hasDateTypeKey` (suggestions/route.ts lines 47-56). -/
def hasDateTypeKeyB (it : KBItem) : Bool :=
  match it.meta.date_iso, it.meta.type, it.meta.restaurant_key with
  | some d, some _, some _ => decide (10 ≤ d.length)
  | _, _, _ => false

/-- JS `split("-")` on character lists, empty parts preserved. -/
def splitCharAux (sep : Char) : List Char → List Char → List (List Char)
  | [], cur => [cur.reverse]
  | c :: cs, cur =>
    if c = sep then cur.reverse :: splitCharAux sep cs []
    else splitCharAux sep cs (c :: cur)

/-- JS `s.split("-")`. -/
def splitDash (s : String) : List String :=
  (splitCharAux '-' s.toList []).map String.mk

/-- Function `toDDMMYYYY` (suggestions/route.ts lines 33-37): JS destructuring
of the split parts yields `undefined` for missing positions, which
template literals render as the string `undefined`. -/
def toDDMMYYYY (iso : String) : String :=
  if iso.length < 10 then iso
  else
    match splitDash (String.mk (iso.toList.take 10)) with
    | [] => iso
    | [y] => "undefined/undefined/" ++ y
    | [y, m] => "undefined/" ++ m ++ "/" ++ y
    | y :: m :: d :: _ => d ++ "/" ++ m ++ "/" ++ y

/-- Function `humanType`: every underscore replaced by a space (the AM/PM
replacements in the source replace a string by itself). -/
def humanType (t : String) : String :=
  String.mk (t.toList.map fun c => if c = '_' then ' ' else c)

/-- The suggestion prompt built by `addFrom` (line 97). -/
def promptOf (it : KBItem) : String :=
  humanType (it.meta.type.getD "") ++ " for restaurant " ++
    (it.meta.restaurant_key.getD "") ++ " on " ++
    toDDMMYYYY (it.meta.date_iso.getD "")

/-- Sort key of the newest-first sort. -/
def dateOf (it : KBItem) : String := it.meta.date_iso.getD ""

/-- Stable descending insertion by date: the new element (earlier in
the original list) goes before the first element with date ≤ its own,
so larger dates stay in front and ties keep original order — the
behaviour of the runtime's stable sort with the comparator of line
86-88. -/
def insertByDate (a : KBItem) : List KBItem → List KBItem
  | [] => [a]
  | b :: bs =>
    if dateOf b ≤ dateOf a then a :: b :: bs else b :: insertByDate a bs

/-- The sort `items.sort((a, b) => a.meta.date_iso < b.meta.date_iso ? 1 : -1)`,
modelled as the (unique) stable sort by descending date. -/
def sortByDateDesc (l : List KBItem) : List KBItem :=
  l.foldr insertByDate []

/-- The `dated` list (lines 77-88): hint filters, fallback to the full
corpus when they empty the set, required-metadata filter, newest
first. -/
def datedOf (kb : List KBItem) (h : Hints) : List KBItem :=
  let base := suggBaseFilter kb h
  let base2 := if base.length = 0 then kb else base
  sortByDateDesc (base2.filter fun it => hasDateTypeKeyB it)

/-- Function `addFrom` (lines 95-103) on the (seenPrompts, out) state: skip a
duplicate prompt, otherwise record and append it. -/
def addFrom (st : List String × List String) (p : String) :
    List String × List String :=
  if p ∈ st.1 then st else (p :: st.1, st.2 ++ [p])

/-- Pass 1 (lines 106-112): one slot per preferred type in order — the
first (newest) dated fact of that type — breaking once `limit` is
reached after an add. -/
def pass1 (dated : List KBItem) (limit : Nat) :
    List String → List String × List String → List String × List String
  | [], st => st
  | t :: ts, st =>
    match dated.find? (fun it => it.meta.type == some t) with
    | none => pass1 dated limit ts st
    | some f =>
      let st' := addFrom st (promptOf f)
      if limit ≤ st'.2.length then st' else pass1 dated limit ts st'

/-- Pass 2 (lines 115-117): backfill with the most recent remaining
facts while below `limit`, skipping duplicate prompts. -/
def pass2 (limit : Nat) :
    List KBItem → List String × List String → List String × List String
  | [], st => st
  | f :: fs, st =>
    if limit ≤ st.2.length then st
    else pass2 limit fs (addFrom st (promptOf f))

/-- The suggestions the route returns. -/
def suggestionsOut (kb : List KBItem) (h : Hints)
    (preferred : List String) (limit : Nat) : List String :=
  (pass2 limit (datedOf kb h)
    (pass1 (datedOf kb h) limit preferred ([], []))).2

/-- The (seenPrompts, out) state invariant: emitted prompts are
distinct and all recorded as seen. -/
def stInv (st : List String × List String) : Prop :=
  st.2.Nodup ∧ ∀ p ∈ st.2, p ∈ st.1

/-! ## Theorems -/

theorem dedupeAux_sublist (seen : List String) (fs : List KBItem) :
    List.Sublist (dedupeAux seen fs) fs := by
  induction fs generalizing seen with
  | nil => simp [dedupeAux]
  | cons f fs ih =>
    simp only [dedupeAux]
    split
    · exact (ih seen).cons f
    · exact (ih (f.text :: seen)).cons₂ f

theorem dedupeAux_nodup (seen : List String) (fs : List KBItem) :
    ((dedupeAux seen fs).map (fun f => f.text)).Nodup ∧
      ∀ t ∈ seen, t ∉ (dedupeAux seen fs).map (fun f => f.text) := by
  induction fs generalizing seen with
  | nil => simp [dedupeAux]
  | cons f fs ih =>
    simp only [dedupeAux]
    split
    · exact ih seen
    · rename_i hns
      obtain ⟨h1, h2⟩ := ih (f.text :: seen)
      refine ⟨?_, ?_⟩
      · simp only [List.map_cons, List.nodup_cons]
        exact ⟨h2 f.text (by simp), h1⟩
      · intro t ht
        simp only [List.map_cons, List.mem_cons, not_or]
        constructor
        · rintro rfl; exact hns ht
        · exact h2 t (by simp [ht])

theorem dedupeAux_covers (seen : List String) (fs : List KBItem) :
    ∀ f ∈ fs, f.text ∈ seen ∨
      ∃ g ∈ dedupeAux seen fs, g.text = f.text := by
  induction fs generalizing seen with
  | nil => simp
  | cons a fs ih =>
    intro f hf
    simp only [dedupeAux]
    rcases List.mem_cons.mp hf with rfl | hf
    · by_cases ha : f.text ∈ seen
      · left; exact ha
      · right; simp only [if_neg ha]; exact ⟨f, by simp⟩
    · by_cases ha : a.text ∈ seen
      · simpa [if_pos ha] using ih seen f hf
      · simp only [if_neg ha]
        rcases ih (a.text :: seen) f hf with h | ⟨g, hg, hgt⟩
        · rcases List.mem_cons.mp h with h | h
          · right; exact ⟨a, by simp, h.symm⟩
          · left; exact h
        · right; exact ⟨g, by simp [hg], hgt⟩

theorem dedupeAux_first (seen : List String) (fs : List KBItem) :
    ∀ g ∈ dedupeAux seen fs, g.text ∉ seen ∧
      fs.find? (fun x => x.text == g.text) = some g := by
  induction fs generalizing seen with
  | nil => simp [dedupeAux]
  | cons a fs ih =>
    intro g hg
    simp only [dedupeAux] at hg
    by_cases ha : a.text ∈ seen
    · rw [if_pos ha] at hg
      obtain ⟨hns, hfind⟩ := ih seen g hg
      have hne : a.text ≠ g.text := by
        rintro h; exact hns (h ▸ ha)
      refine ⟨hns, ?_⟩
      rw [List.find?_cons_of_neg, hfind]
      simp [hne]
    · rw [if_neg ha] at hg
      rcases List.mem_cons.mp hg with rfl | hg
      · exact ⟨ha, by rw [List.find?_cons_of_pos _ (by simp)]⟩
      · obtain ⟨hns, hfind⟩ := ih (a.text :: seen) g hg
        have hne : a.text ≠ g.text := by
          intro h; exact hns (by simp [h])
        refine ⟨fun h => hns (by simp [h]), ?_⟩
        rw [List.find?_cons_of_neg, hfind]
        simp [hne]

theorem dedupeAux_keeps_first (seen : List String) (fs : List KBItem) :
    ∀ f, f.text ∉ seen →
      fs.find? (fun x => x.text == f.text) = some f →
      f ∈ dedupeAux seen fs := by
  induction fs generalizing seen with
  | nil => simp
  | cons a fs ih =>
    intro f hns hfind
    simp only [dedupeAux]
    by_cases hat : a.text = f.text
    · have : a = f := by
        rw [List.find?_cons_of_pos _ (by simp [hat])] at hfind
        exact Option.some.inj hfind
      subst this
      rw [if_neg hns]
      simp
    · rw [List.find?_cons_of_neg _ (by simp [hat])] at hfind
      by_cases ha : a.text ∈ seen
      · rw [if_pos ha]; exact ih seen f hns hfind
      · rw [if_neg ha]
        right
        exact ih (a.text :: seen) f (by simp [hns, Ne.symm hat]) hfind

/-- C8: after deduplication no two surviving facts share a text, the
output is a sublist of the input (order preserved), every input text is
still represented, exactly the first occurrence of each text survives,
and every survivor is the first occurrence of its text. -/
theorem dedupe_unique_texts (facts : List KBItem) :
    ((dedupeByText facts).map (fun f => f.text)).Nodup ∧
      List.Sublist (dedupeByText facts) facts ∧
      (∀ f ∈ facts, ∃ g ∈ dedupeByText facts, g.text = f.text) ∧
      (∀ f, facts.find? (fun x => x.text == f.text) = some f →
        f ∈ dedupeByText facts) ∧
      (∀ g ∈ dedupeByText facts,
        facts.find? (fun x => x.text == g.text) = some g) := by
  refine ⟨(dedupeAux_nodup [] facts).1, dedupeAux_sublist [] facts,
    ?_, ?_, ?_⟩
  · intro f hf
    rcases dedupeAux_covers [] facts f hf with h | h
    · simp at h
    · exact h
  · intro f hfind
    exact dedupeAux_keeps_first [] facts f (by simp) hfind
  · intro g hg
    exact (dedupeAux_first [] facts g hg).2

/-- C2 counterexample: the binary index builder
(scripts/build-knowledge-bin.mjs) does NOT install its two artifacts
atomically — both `data/kb.vec.bin` and `data/kb.meta.json` are written
directly at their final paths and no rename occurs at all. -/
theorem binBuilder_not_atomic :
    ¬ (atomicallyInstalled binBuilderOps "data/kb.vec.bin" ∧
        atomicallyInstalled binBuilderOps "data/kb.meta.json") ∧
      writesDirectly binBuilderOps "data/kb.vec.bin" = true ∧
      writesDirectly binBuilderOps "data/kb.meta.json" = true ∧
      renamedInto binBuilderOps "data/kb.vec.bin" = false ∧
      renamedInto binBuilderOps "data/kb.meta.json" = false := by
  decide

/-- C2 amended: only the JSON builder (scripts/build-knowledge.mjs)
writes its artifact to a temporary path and atomically renames it into
place; the binary builder writes both the vector buffer and the sidecar
metadata directly to their final paths with no rename, so a
partially-written or mixed sidecar/buffer pair at
`data/kb.vec.bin` / `data/kb.meta.json` is observable mid-build. -/
theorem jsonBuilder_atomic_binBuilder_direct :
    atomicallyInstalled jsonBuilderOps "data/knowledge.json" ∧
      writesDirectly binBuilderOps "data/kb.vec.bin" = true ∧
      writesDirectly binBuilderOps "data/kb.meta.json" = true ∧
      (∀ op ∈ binBuilderOps, ∀ src dst, op ≠ FsOp.rename src dst) := by
  refine ⟨by decide, by decide, by decide, ?_⟩
  intro op hop src dst
  fin_cases hop <;> simp

/-- C3: the load operation is idempotent and cached.  With an empty
cache it throws exactly when the buffer float length differs from
`count * dim`, caching nothing on the throw; on success it caches the
loaded structure; with a populated cache it returns the identical
cached structure, ignoring storage entirely (no re-read). -/
theorem loadKBBin_cached_and_validated :
    (∀ st : StorageKB, st.vec.length ≠ st.count * st.dim →
      loadKBBin none st =
        (Except.error ("Vector file length mismatch: have " ++
          toString st.vec.length ++ ", expected " ++
          toString (st.count * st.dim)), none)) ∧
    (∀ st : StorageKB, st.vec.length = st.count * st.dim →
      loadKBBin none st =
        (Except.ok ⟨st.dim, st.count, st.items, st.vec⟩,
          some ⟨st.dim, st.count, st.items, st.vec⟩)) ∧
    (∀ (b : KBBin) (st st' : StorageKB),
      loadKBBin (some b) st = (Except.ok b, some b) ∧
      loadKBBin (some b) st = loadKBBin (some b) st') := by
  refine ⟨?_, ?_, ?_⟩
  · intro st h
    simp [loadKBBin, h]
  · intro st h
    simp [loadKBBin, h]
  · intro b st st'
    exact ⟨rfl, rfl⟩

/-- Witness for C3: the corrupt storage throws and caches nothing, the
valid storage loads, and a cached value is returned unchanged for any
two storages. -/
theorem loadKBBin_cached_and_validated_witness :
    loadKBBin none badStorage =
      (Except.error "Vector file length mismatch: have 3, expected 4",
        none) ∧
    loadKBBin none goodStorage =
      (Except.ok ⟨2, 1, [exFactA], [(1 : ℝ), 0]⟩,
        some ⟨2, 1, [exFactA], [(1 : ℝ), 0]⟩) ∧
    loadKBBin (some ⟨2, 1, [exFactA], [(1 : ℝ), 0]⟩) badStorage =
      (Except.ok ⟨2, 1, [exFactA], [(1 : ℝ), 0]⟩,
        some ⟨2, 1, [exFactA], [(1 : ℝ), 0]⟩) := by
  refine ⟨?_, ?_,
    (loadKBBin_cached_and_validated.2.2 _ badStorage badStorage).1⟩
  · have h := loadKBBin_cached_and_validated.1 badStorage (by decide)
    simpa [badStorage] using h
  · have h := loadKBBin_cached_and_validated.2.1 goodStorage (by decide)
    simpa [goodStorage] using h

/-- C5 counterexample: at checks=10, completed=5, passed=5, comp=50 %,
pass=100 % the claim selects tier (b) — "all passed, N remain" — but
the code emits the minor-gaps message, because its tier (b) guard also
requires completion ≥ 90 %. -/
theorem tailFor_claim_counterexample :
    specTierClaim ⟨10, 5, 5, 50, 100⟩ = Tier.allPassedRemain ∧
    tailFor ⟨10, 5, 5, 50, 100⟩ =
      " Some gaps: 5 not completed. Please follow up." ∧
    tailFor ⟨10, 5, 5, 50, 100⟩ ≠
      tierMessage (specTierClaim ⟨10, 5, 5, 50, 100⟩)
        ⟨10, 5, 5, 50, 100⟩ := by
  refine ⟨by decide, by decide, by decide⟩

/-- C5 amended: for every parsed stats record the composer emits the
message of the tier selected by descending specificity with the code's
actual guards: checks = 0 → no-checks note; 100 % completion and 100 %
pass → congratulatory; 100 % pass with completion ≥ 90 % and checks
remaining → "all passed, N remain"; 100 % completion with pass ≥ 95 %
and some failures → "good completion, N failed"; pass ≥ 90 % →
minor-gaps; pass ≥ 70 % → corrective-action; below 70 % → urgent;
with not_completed = checks - completed and
failed = completed - passed (both truncated at zero). -/
theorem tailFor_amended (s : Stats) :
    tailFor s = tierMessage (specTierAmended s) s := by
  by_cases h0 : s.checks = 0 <;>
  by_cases hcp : s.compPct = 100 <;>
  by_cases hpp : s.passPct = 100 <;>
  by_cases h90c : 90 ≤ s.compPct <;>
  by_cases hnc : 0 < notCompleted s <;>
  by_cases h95 : 95 ≤ s.passPct <;>
  by_cases hf : 0 < failedOf s <;>
  by_cases hd : 90 ≤ s.passPct <;>
  by_cases he : 70 ≤ s.passPct <;>
  first
    | omega
    | simp [tailFor, specTierAmended, firstTier, tierMessage,
        Bool.and_eq_true, beq_iff_eq, decide_eq_true_eq, and_assoc,
        h0, hcp, hpp, h90c, hnc, h95, hf, hd, he]

/-- Witness for C5's amended theorem at the perfect-score stats of
spec Scenario A. -/
theorem tailFor_amended_witness :
    tailFor ⟨13, 13, 13, 100, 100⟩ =
      tierMessage (specTierAmended ⟨13, 13, 13, 100, 100⟩)
        ⟨13, 13, 13, 100, 100⟩ ∧
    tailFor ⟨13, 13, 13, 100, 100⟩ = " Well done — keep it up." := by
  exact ⟨tailFor_amended ⟨13, 13, 13, 100, 100⟩, by decide⟩

/-- C6 counterexample: with both the id hint `123` and the name-capture
hint `123` present, the claim keeps the item whose restaurant_key is
`123`, but the chat prefilter also applies the name-substring filter
(not guarded by the id's absence) and discards it. -/
theorem chatPrefilter_claim_counterexample :
    chatPrefilter [itemC6] hintsC6 = [] ∧
    specPrefilterClaim [itemC6] hintsC6 = [itemC6] ∧
    chatPrefilter [itemC6] hintsC6 ≠ specPrefilterClaim [itemC6] hintsC6 := by
  refine ⟨by decide, by decide, by decide⟩

theorem chatPrefilter_eq_spec (kb : List KBItem) (h : Hints) :
    chatPrefilter kb h = specPrefilterAmended kb h := by
  obtain ⟨rid, ng, dg, tg⟩ := h
  rcases rid with _ | r <;> rcases ng with _ | n <;>
    rcases dg with _ | d <;> rcases tg with _ | t <;>
    first
      | (simp [chatPrefilter, specPrefilterAmended, ridCond, nameCond,
          dateCond, typeCond, List.filter_filter, Bool.and_assoc,
          Bool.and_comm, Bool.and_left_comm]
         done)
      | (by_cases hl : 3 ≤ n.length <;>
          simp [chatPrefilter, specPrefilterAmended, ridCond, nameCond,
            dateCond, typeCond, List.filter_filter, Bool.and_assoc,
            Bool.and_comm, Bool.and_left_comm, hl])

theorem suggBaseFilter_eq_spec (kb : List KBItem) (h : Hints) :
    suggBaseFilter kb h =
      kb.filter (fun x =>
        suggTypeCond h x &&
        ridCond h x &&
        (match h.rid with
          | none => nameCond h x
          | some _ => true)) := by
  obtain ⟨rid, ng, dg, tg⟩ := h
  rcases rid with _ | r <;> rcases ng with _ | n <;>
    rcases tg with _ | t <;>
    first
      | (simp [suggBaseFilter, ridCond, nameCond, suggTypeCond,
          List.filter_filter, Bool.and_assoc, Bool.and_comm,
          Bool.and_left_comm]
         done)
      | (by_cases hl : 3 ≤ n.length <;>
          simp [suggBaseFilter, ridCond, nameCond, suggTypeCond,
            List.filter_filter, Bool.and_assoc, Bool.and_comm,
            Bool.and_left_comm, hl])

/-- C6 amended: the chat prefilter narrows by every present hint with
AND semantics — id equality, name substring whenever the name hint is
present with length ≥ 3 (also when the id hint is present), date
prefix, type equality; the suggestions route applies the name filter
only when the id hint is absent, as the claim stated. -/
theorem chatPrefilter_amended (kb : List KBItem) (h : Hints) :
    chatPrefilter kb h = specPrefilterAmended kb h ∧
    suggBaseFilter kb h =
      kb.filter (fun x =>
        suggTypeCond h x &&
        ridCond h x &&
        (match h.rid with
          | none => nameCond h x
          | some _ => true)) :=
  ⟨chatPrefilter_eq_spec kb h, suggBaseFilter_eq_spec kb h⟩

/-- C4 counterexample: with the code's epsilon guards the optimised
similarity against the precomputed unit vector does NOT equal the full
cosine.  At q = [1], v = [2]: the optimised value is
(2/(2+ε))/(1+ε), the full cosine is 2/(2+ε), and they differ. -/
theorem cosineToUnit_claim_counterexample :
    cosineToUnit [(1 : ℝ)] (unitNormalize [(2 : ℝ)]) ≠
      cosineFull [(1 : ℝ)] [(2 : ℝ)] := by
  have hs1 : norm2 [(1 : ℝ)] = 1 := by
    simp only [norm2, dotR, List.zipWith_cons_cons, List.zipWith_nil_right,
      List.sum_cons, List.sum_nil]
    rw [show (1 : ℝ) * 1 + 0 = 1 ^ 2 by norm_num]
    exact Real.sqrt_sq (by norm_num)
  have hs2 : norm2 [(2 : ℝ)] = 2 := by
    simp only [norm2, dotR, List.zipWith_cons_cons, List.zipWith_nil_right,
      List.sum_cons, List.sum_nil]
    rw [show (2 : ℝ) * 2 + 0 = 2 ^ 2 by norm_num]
    exact Real.sqrt_sq (by norm_num)
  simp only [cosineToUnit, cosineFull, unitNormalize, List.map_cons,
    List.map_nil, dotR, List.zipWith_cons_cons, List.zipWith_nil_right,
    List.sum_cons, List.sum_nil, hs1, hs2, EPS]
  intro h
  rw [div_eq_div_iff (by norm_num) (by norm_num)] at h
  nlinarith [h]

theorem dotR_map_div (c : ℝ) (a b : List ℝ) :
    dotR a (b.map fun x => x / c) = dotR a b / c := by
  induction a generalizing b with
  | nil => simp [dotR]
  | cons x xs ih =>
    cases b with
    | nil => simp [dotR]
    | cons y ys =>
      simp only [dotR, List.map_cons, List.zipWith_cons_cons,
        List.sum_cons] at ih ⊢
      rw [← mul_div_assoc, ih ys, div_add_div_same]

/-- C4 amended: the precomputation identity holds for the epsilon-free
idealisation — for every query q and stored vector v,
dot(q, v/‖v‖) / ‖q‖ = dot(q, v) / (‖q‖·‖v‖) — so up to the 1e-9
regularisation terms, query-time cosine reduces to a single dot product
divided by the query's own norm; with the code's epsilon the two
quantities are distinct real numbers (see the counterexample). -/
theorem cosineToUnitIdeal_eq_cosineIdeal (q v : List ℝ) :
    cosineToUnitIdeal q (unitIdeal v) = cosineIdeal q v := by
  unfold cosineToUnitIdeal cosineIdeal unitIdeal
  rw [dotR_map_div, div_div, mul_comm]

theorem dedupe_unique_texts_witness :
    ((dedupeByText [exFactA, exFactB, exFactC]).map
        (fun f => f.text)).Nodup ∧
      dedupeByText [exFactA, exFactB, exFactC] = [exFactA, exFactC] := by
  refine ⟨(dedupe_unique_texts [exFactA, exFactB, exFactC]).1, ?_⟩
  decide

theorem find?_first_of_holds {α : Type} (p : α → Bool) (l : List α) :
    ∀ (i : Nat) (hi : i < l.length), p (l.get ⟨i, hi⟩) = true →
    ∃ (m : Nat) (hm : m < l.length), m ≤ i ∧
      l.find? p = some (l.get ⟨m, hm⟩) ∧
      p (l.get ⟨m, hm⟩) = true ∧
      ∀ j (hj : j < m), p (l.get ⟨j, Nat.lt_trans hj hm⟩) = false := by
  induction l with
  | nil => intro i hi; simp at hi
  | cons a l ih =>
    intro i hi hp
    by_cases ha : p a = true
    · refine ⟨0, by simp, Nat.zero_le i, ?_, ha, fun j hj => absurd hj (by omega)⟩
      rw [List.find?_cons_of_pos _ ha]
      rfl
    · have ha' : p a = false := by
        cases hpa : p a
        · rfl
        · exact absurd hpa ha
      cases i with
      | zero => exact absurd hp ha
      | succ i' =>
        have hi' : i' < l.length := by
          simpa [Nat.succ_lt_succ_iff] using hi
        have hp' : p (l.get ⟨i', hi'⟩) = true := hp
        obtain ⟨m, hm, hmi, hfind, hpm, hprev⟩ := ih i' hi' hp'
        refine ⟨m + 1, by simpa [Nat.succ_lt_succ_iff] using hm,
          by omega, ?_, hpm, ?_⟩
        · rw [List.find?_cons_of_neg _ (by simp [ha'])]
          exact hfind
        · intro j hj
          cases j with
          | zero => exact ha'
          | succ j' => exact hprev j' (by omega)

theorem lookupIdxAux_isSome_mono (id : String) (l : List KBItem) :
    ∀ (i : Nat) (acc : Option Nat), acc.isSome = true →
      (lookupIdxAux id l i acc).isSome = true := by
  induction l with
  | nil => intro i acc h; simpa [lookupIdxAux] using h
  | cons a l ih =>
    intro i acc h
    simp only [lookupIdxAux]
    by_cases ha : a.id = id
    · exact ih (i + 1) _ (by simp [ha])
    · exact ih (i + 1) _ (by simp [ha, h])

theorem lookupIdx_isSome_of_mem (items : List KBItem) (x : KBItem)
    (hx : x ∈ items) : (lookupIdx items x.id).isSome = true := by
  unfold lookupIdx
  suffices h : ∀ (i : Nat) (acc : Option Nat),
      (lookupIdxAux x.id items i acc).isSome = true from h 0 none
  induction items with
  | nil => simp at hx
  | cons a l ih =>
    intro i acc
    rcases List.mem_cons.mp hx with rfl | hx'
    · simp only [lookupIdxAux]
      exact lookupIdxAux_isSome_mono _ _ _ _ (by simp)
    · simp only [lookupIdxAux]
      exact ih hx' (i + 1) _

theorem scoreAll_length (bin : KBBin) (q : List ℝ) (items : List KBItem)
    (h : ∀ it ∈ items, (lookupIdx bin.items it.id).isSome = true) :
    (scoreAll bin q items).length = items.length := by
  induction items with
  | nil => simp [scoreAll]
  | cons a l ih =>
    have ha := h a (by simp)
    obtain ⟨i, hi⟩ := Option.isSome_iff_exists.mp ha
    simp only [scoreAll, List.filterMap_cons, hi]
    have := ih fun it hit => h it (by simp [hit])
    simp only [scoreAll] at this
    simp [this]

theorem insertScored_length (a : KBItem × ℝ) (l : List (KBItem × ℝ)) :
    (insertScored a l).length = l.length + 1 := by
  induction l with
  | nil => simp [insertScored]
  | cons b bs ih =>
    simp only [insertScored]
    split <;> simp [ih]

theorem sortScoredDesc_length (l : List (KBItem × ℝ)) :
    (sortScoredDesc l).length = l.length := by
  induction l with
  | nil => rfl
  | cons a l ih =>
    simp only [sortScoredDesc, List.foldr_cons] at ih ⊢
    rw [insertScored_length, ih]
    simp

theorem chatPrefilter_subset (kb : List KBItem) (h : Hints) :
    ∀ x ∈ chatPrefilter kb h, x ∈ kb := by
  intro x hx
  rw [chatPrefilter_eq_spec] at hx
  exact (List.mem_filter.mp hx).1

theorem chatPrefilter_nil (h : Hints) : chatPrefilter [] h = [] := by
  rw [chatPrefilter_eq_spec]
  rfl

theorem chatPool_subset (kb : List KBItem) (h : Hints) :
    ∀ x ∈ chatPool kb h, x ∈ kb := by
  intro x hx
  unfold chatPool at hx
  split at hx
  · exact chatPrefilter_subset kb h x hx
  · exact hx

theorem chatPool_ne_nil (kb : List KBItem) (h : Hints) (hkb : kb ≠ []) :
    chatPool kb h ≠ [] := by
  unfold chatPool
  split
  · rename_i hlen
    intro hnil
    rw [hnil] at hlen
    simp at hlen
  · exact hkb

theorem fastMatch_eq_find (kb : List KBItem) (h : Hints)
    (rid d ty : String) (hr : h.rid = some rid) (hd : h.dateGuess = some d)
    (ht : h.typeGuess = some ty) :
    fastMatch kb h = kb.find? (exactPredB rid d ty) := by
  obtain ⟨r', n', d', t'⟩ := h
  have hr' : r' = some rid := hr
  have hd' : d' = some d := hd
  have ht' : t' = some ty := ht
  subst hr' hd' ht'
  rfl

theorem chatResolve_eq_semantic (bin : KBBin) (h : Hints) (q : List ℝ)
    (hfp : fastPathHitB bin.items h = false) :
    chatResolve bin h q = chatSemantic bin h q := by
  unfold chatResolve
  unfold fastPathHitB at hfp
  cases hfm : fastMatch bin.items h with
  | none => rfl
  | some f => rw [hfm] at hfp; simp at hfp

theorem topK_nil_iff (bin : KBBin) (h : Hints) (q : List ℝ) :
    topKByCosine bin q (chatPool bin.items h) 12 = [] ↔ bin.items = [] := by
  constructor
  · intro htop
    by_contra hne
    have hpool := chatPool_ne_nil bin.items h hne
    have hsub := chatPool_subset bin.items h
    have hlen : (scoreAll bin q (chatPool bin.items h)).length =
        (chatPool bin.items h).length :=
      scoreAll_length bin q _ fun it hit =>
        lookupIdx_isSome_of_mem bin.items it (hsub it hit)
    have hlen2 : (sortScoredDesc (scoreAll bin q (chatPool bin.items h))).length =
        (chatPool bin.items h).length := by
      rw [sortScoredDesc_length, hlen]
    have hpos : 0 < (chatPool bin.items h).length :=
      List.length_pos.mpr hpool
    have : (topKByCosine bin q (chatPool bin.items h) 12).length = 0 := by
      rw [htop]; rfl
    rw [topKByCosine, List.length_take, hlen2] at this
    omega
  · intro hnil
    unfold topKByCosine chatPool
    rw [hnil, chatPrefilter_nil]
    simp [scoreAll, sortScoredDesc]

/-- C1: when the final message yields all three hints and some fact in
the index matches the exact-match predicate (restaurant_key equal to
the id, date_iso starting with the parsed date, type equal), the
resolver resolves via the fast path: the answer is the deterministic
summary of the matched fact, `used` is exactly that fact's id,
`narrowedCount` is 1, and no embedding call is issued; the returned
fact is `find?`'s first match, a function of the hints and the index
alone, so identical hints always return the same fact id. -/
theorem chat_fastpath_exact (bin : KBBin) (h : Hints) (q : List ℝ)
    (rid d ty : String) (hr : h.rid = some rid)
    (hd : h.dateGuess = some d) (ht : h.typeGuess = some ty)
    (hex : ∃ f ∈ bin.items, exactPredB rid d ty f = true) :
    ∃ f, bin.items.find? (exactPredB rid d ty) = some f ∧
      exactPredB rid d ty f = true ∧ f ∈ bin.items ∧
      chatResolve bin h q =
        ⟨AnswerKind.exactAnswer f, [f.id], 1, false⟩ := by
  obtain ⟨f0, hf0, hp0⟩ := hex
  have hsome : (bin.items.find? (exactPredB rid d ty)).isSome = true := by
    rw [List.find?_isSome]
    exact ⟨f0, hf0, hp0⟩
  obtain ⟨f, hf⟩ := Option.isSome_iff_exists.mp hsome
  refine ⟨f, hf, List.find?_some hf, List.mem_of_find?_eq_some hf, ?_⟩
  unfold chatResolve
  rw [fastMatch_eq_find bin.items h rid d ty hr hd ht, hf]

/-- Witness for C1 at a one-fact index and the hints of the query
"Opening Check for restaurant 123 on 2025-09-20". -/
theorem chat_fastpath_exact_witness :
    ∃ f, binC1.items.find?
        (exactPredB "123" "2025-09-20" "Opening_Check") = some f ∧
      exactPredB "123" "2025-09-20" "Opening_Check" f = true ∧
      f ∈ binC1.items ∧
      chatResolve binC1 hintsC1 [] =
        ⟨AnswerKind.exactAnswer f, [f.id], 1, false⟩ :=
  chat_fastpath_exact binC1 hintsC1 [] "123" "2025-09-20" "Opening_Check"
    rfl rfl rfl ⟨itemC6, by decide, by decide⟩

/-- C10: when two distinct positions of the index both satisfy the
exact-match predicate, the fast path still resolves (uniqueness is
never checked) and deterministically returns the fact at the EARLIEST
matching position. -/
theorem chat_fastpath_first_of_many (bin : KBBin) (h : Hints)
    (q : List ℝ) (rid d ty : String) (hr : h.rid = some rid)
    (hd : h.dateGuess = some d) (ht : h.typeGuess = some ty)
    (i j : Nat) (hij : i < j) (hj : j < bin.items.length)
    (h1 : exactPredB rid d ty
      (bin.items.get ⟨i, Nat.lt_trans hij hj⟩) = true)
    (h2 : exactPredB rid d ty (bin.items.get ⟨j, hj⟩) = true) :
    ∃ (m : Nat) (hm : m < bin.items.length), m ≤ i ∧
      exactPredB rid d ty (bin.items.get ⟨m, hm⟩) = true ∧
      (∀ l2 (hl : l2 < m),
        exactPredB rid d ty
          (bin.items.get ⟨l2, Nat.lt_trans hl hm⟩) = false) ∧
      chatResolve bin h q =
        ⟨AnswerKind.exactAnswer (bin.items.get ⟨m, hm⟩),
          [(bin.items.get ⟨m, hm⟩).id], 1, false⟩ := by
  obtain ⟨m, hm, hmi, hfind, hpm, hprev⟩ :=
    find?_first_of_holds (exactPredB rid d ty) bin.items i
      (Nat.lt_trans hij hj) h1
  refine ⟨m, hm, hmi, hpm, hprev, ?_⟩
  unfold chatResolve
  rw [fastMatch_eq_find bin.items h rid d ty hr hd ht, hfind]

/-- Witness for C10: `exFactA` and `exFactB` (positions 0 and 1) both
match the hints; the resolver succeeds and returns position 0. -/
theorem chat_fastpath_first_of_many_witness :
    ∃ (m : Nat) (hm : m < binC10.items.length), m ≤ 0 ∧
      exactPredB "74" "2025-09-20" "Opening_Check"
        (binC10.items.get ⟨m, hm⟩) = true ∧
      (∀ l2 (hl : l2 < m),
        exactPredB "74" "2025-09-20" "Opening_Check"
          (binC10.items.get ⟨l2, Nat.lt_trans hl hm⟩) = false) ∧
      chatResolve binC10 hintsC10 [] =
        ⟨AnswerKind.exactAnswer (binC10.items.get ⟨m, hm⟩),
          [(binC10.items.get ⟨m, hm⟩).id], 1, false⟩ :=
  chat_fastpath_first_of_many binC10 hintsC10 []
    "74" "2025-09-20" "Opening_Check" rfl rfl rfl 0 1
    (by decide) (by decide) (by decide) (by decide)

/-- C7 counterexample: `topKByCosine` applies no relevance threshold,
so candidates whose scores are below any positive relevance level —
here a strictly negative cosine — are still ranked and returned: the
response carries their ids, not the no-matching-record answer with
`used = []`. -/
theorem chatSemantic_lowscore_counterexample :
    (chatResolve binC7 hintsNone [(3 : ℝ), 4]).used = [exFactA.id] ∧
    (chatResolve binC7 hintsNone [(3 : ℝ), 4]).answer ≠
      AnswerKind.noRecord ∧
    (scoreAll binC7 [(3 : ℝ), 4] (chatPool binC7.items hintsNone)).map
      (fun t => t.2) = [scoreOf binC7 [(3 : ℝ), 4] 0] ∧
    scoreOf binC7 [(3 : ℝ), 4] 0 < 0 := by
  have hn : norm2 [(3 : ℝ), 4] = 5 := by
    simp only [norm2, dotR, List.zipWith_cons_cons,
      List.zipWith_nil_right, List.sum_cons, List.sum_nil]
    rw [show (3 : ℝ) * 3 + (4 * 4 + 0) = 5 ^ 2 by norm_num]
    exact Real.sqrt_sq (by norm_num)
  have hsc : scoreOf binC7 [(3 : ℝ), 4] 0 =
      (3 * (-1) + (4 * 0 + 0)) / (norm2 [(3 : ℝ), 4] + EPS) := rfl
  have hans : (chatResolve binC7 hintsNone [(3 : ℝ), 4]).answer =
      AnswerKind.generated [exFactA.text] := rfl
  refine ⟨rfl, by rw [hans]; simp, rfl, ?_⟩
  rw [hsc, hn]
  have hE : (0 : ℝ) < EPS := by norm_num [EPS]
  apply div_neg_of_neg_of_pos
  · norm_num
  · linarith

/-- C7 amended: whenever the resolver reaches the semantic stage and
ranking yields zero results, it returns the explicit no-matching-record
answer with `used = []` — but ranking yields zero results exactly when
the whole index is empty (an empty narrowed set falls back to the full
corpus, and no relevance threshold exists), never merely because all
scores are low. -/
theorem chatSemantic_noRecord_amended (bin : KBBin) (h : Hints)
    (q : List ℝ) (hfp : fastPathHitB bin.items h = false) :
    (topKByCosine bin q (chatPool bin.items h) 12 = [] →
      chatResolve bin h q =
        ⟨AnswerKind.noRecord, [],
          (chatPrefilter bin.items h).length, true⟩) ∧
    (topKByCosine bin q (chatPool bin.items h) 12 = [] ↔
      bin.items = []) := by
  refine ⟨?_, topK_nil_iff bin h q⟩
  intro htop
  rw [chatResolve_eq_semantic bin h q hfp]
  simp [chatSemantic, htop]

/-- Witness for C7's amended theorem at the empty index: ranking is
empty and the resolver answers no-record with zero evidence ids. -/
theorem chatSemantic_noRecord_amended_witness :
    chatResolve binEmpty hintsNone [] =
      ⟨AnswerKind.noRecord, [], 0, true⟩ ∧
    topKByCosine binEmpty [] (chatPool binEmpty.items hintsNone) 12 = [] := by
  have h := chatSemantic_noRecord_amended binEmpty hintsNone [] (by decide)
  have htop : topKByCosine binEmpty []
      (chatPool binEmpty.items hintsNone) 12 = [] := h.2.mpr rfl
  exact ⟨h.1 htop, htop⟩

theorem addFrom_inv (st : List String × List String) (p : String)
    (h : stInv st) : stInv (addFrom st p) := by
  obtain ⟨h1, h2⟩ := h
  unfold addFrom
  split
  · exact ⟨h1, h2⟩
  · rename_i hns
    constructor
    · refine List.Nodup.append h1 (List.nodup_singleton p) ?_
      intro a ha hb
      rw [List.mem_singleton] at hb
      subst hb
      exact hns (h2 a ha)
    · intro q hq
      rcases List.mem_append.mp hq with hq | hq
      · exact List.mem_cons_of_mem p (h2 q hq)
      · rw [List.mem_singleton] at hq
        rw [hq]
        exact List.mem_cons_self p _

theorem addFrom_len (st : List String × List String) (p : String) :
    (addFrom st p).2.length ≤ st.2.length + 1 := by
  unfold addFrom
  split <;> simp

theorem pass1_inv (dated : List KBItem) (limit : Nat) :
    ∀ (ts : List String) (st : List String × List String),
      stInv st → stInv (pass1 dated limit ts st) := by
  intro ts
  induction ts with
  | nil => intro st h; exact h
  | cons t ts ih =>
    intro st h
    simp only [pass1]
    cases dated.find? (fun it => it.meta.type == some t) with
    | none => exact ih st h
    | some f =>
      simp only
      split
      · exact addFrom_inv st (promptOf f) h
      · exact ih _ (addFrom_inv st (promptOf f) h)

theorem pass2_inv (limit : Nat) :
    ∀ (fs : List KBItem) (st : List String × List String),
      stInv st → stInv (pass2 limit fs st) := by
  intro fs
  induction fs with
  | nil => intro st h; exact h
  | cons f fs ih =>
    intro st h
    simp only [pass2]
    split
    · exact h
    · exact ih _ (addFrom_inv st (promptOf f) h)

theorem pass1_len (dated : List KBItem) (limit : Nat) :
    ∀ (ts : List String) (st : List String × List String),
      (pass1 dated limit ts st).2.length ≤
        max limit (st.2.length + 1) := by
  intro ts
  induction ts with
  | nil => intro st; simp only [pass1]; omega
  | cons t ts ih =>
    intro st
    simp only [pass1]
    cases dated.find? (fun it => it.meta.type == some t) with
    | none =>
      calc (pass1 dated limit ts st).2.length ≤
          max limit (st.2.length + 1) := ih st
    | some f =>
      simp only
      have hlen := addFrom_len st (promptOf f)
      split
      · omega
      · rename_i hlt
        have := ih (addFrom st (promptOf f))
        omega

theorem pass2_len (limit : Nat) :
    ∀ (fs : List KBItem) (st : List String × List String),
      (pass2 limit fs st).2.length ≤ max limit st.2.length := by
  intro fs
  induction fs with
  | nil => intro st; simp only [pass2]; omega
  | cons f fs ih =>
    intro st
    simp only [pass2]
    split
    · omega
    · rename_i hlt
      have h1 := addFrom_len st (promptOf f)
      have := ih (addFrom st (promptOf f))
      omega

theorem pass1_elig (dated : List KBItem) (limit : Nat) :
    ∀ (ts : List String) (st : List String × List String),
      (∀ p ∈ st.2, ∃ f, f ∈ dated ∧ p = promptOf f) →
      ∀ p ∈ (pass1 dated limit ts st).2,
        ∃ f, f ∈ dated ∧ p = promptOf f := by
  intro ts
  induction ts with
  | nil => intro st h; exact h
  | cons t ts ih =>
    intro st h
    simp only [pass1]
    cases hfind : dated.find? (fun it => it.meta.type == some t) with
    | none => exact ih st h
    | some f =>
      have hmem : f ∈ dated := List.mem_of_find?_eq_some hfind
      have hadd : ∀ p ∈ (addFrom st (promptOf f)).2,
          ∃ g, g ∈ dated ∧ p = promptOf g := by
        intro p hp
        unfold addFrom at hp
        split at hp
        · exact h p hp
        · rcases List.mem_append.mp hp with hp | hp
          · exact h p hp
          · rw [List.mem_singleton] at hp
            exact ⟨f, hmem, hp⟩
      simp only
      split
      · exact hadd
      · exact ih _ hadd

theorem pass2_elig (limit : Nat) (dated : List KBItem) :
    ∀ (fs : List KBItem) (hsub : ∀ f ∈ fs, f ∈ dated)
      (st : List String × List String),
      (∀ p ∈ st.2, ∃ f, f ∈ dated ∧ p = promptOf f) →
      ∀ p ∈ (pass2 limit fs st).2,
        ∃ f, f ∈ dated ∧ p = promptOf f := by
  intro fs
  induction fs with
  | nil => intro _ st h; exact h
  | cons f fs ih =>
    intro hsub st h
    simp only [pass2]
    split
    · exact h
    · refine ih (fun g hg => hsub g (by simp [hg])) _ ?_
      intro p hp
      unfold addFrom at hp
      split at hp
      · exact h p hp
      · rcases List.mem_append.mp hp with hp | hp
        · exact h p hp
        · rw [List.mem_singleton] at hp
          exact ⟨f, hsub f (by simp), hp⟩

theorem pass2_append (limit : Nat) :
    ∀ (fs : List KBItem) (st : List String × List String),
      ∃ rest, (pass2 limit fs st).2 = st.2 ++ rest ∧
        List.Sublist rest (fs.map promptOf) := by
  intro fs
  induction fs with
  | nil => intro st; exact ⟨[], by simp [pass2], List.nil_sublist _⟩
  | cons f fs ih =>
    intro st
    simp only [pass2]
    split
    · exact ⟨[], by simp, List.nil_sublist _⟩
    · unfold addFrom
      split
      · obtain ⟨rest, h1, h2⟩ := ih st
        exact ⟨rest, h1, h2.cons (promptOf f)⟩
      · obtain ⟨rest, h1, h2⟩ := ih (promptOf f :: st.1, st.2 ++ [promptOf f])
        refine ⟨promptOf f :: rest, ?_, h2.cons₂ (promptOf f)⟩
        rw [h1]
        simp

theorem pass1_mem_src (dated : List KBItem) (limit : Nat) :
    ∀ (ts : List String) (st : List String × List String) (p : String),
      p ∈ (pass1 dated limit ts st).2 →
      p ∈ st.2 ∨ ∃ t ∈ ts, ∃ f,
        dated.find? (fun it => it.meta.type == some t) = some f ∧
        p = promptOf f := by
  intro ts
  induction ts with
  | nil => intro st p hp; exact Or.inl hp
  | cons t ts ih =>
    intro st p hp
    simp only [pass1] at hp
    cases hfind : dated.find? (fun it => it.meta.type == some t) with
    | none =>
      rw [hfind] at hp
      rcases ih st p hp with h | ⟨t', ht', hf⟩
      · exact Or.inl h
      · exact Or.inr ⟨t', by simp [ht'], hf⟩
    | some f =>
      rw [hfind] at hp
      simp only at hp
      have haddCase : p ∈ (addFrom st (promptOf f)).2 →
          p ∈ st.2 ∨ ∃ t' ∈ t :: ts, ∃ g,
            dated.find? (fun it => it.meta.type == some t') = some g ∧
            p = promptOf g := by
        intro hp'
        unfold addFrom at hp'
        split at hp'
        · exact Or.inl hp'
        · rcases List.mem_append.mp hp' with hp' | hp'
          · exact Or.inl hp'
          · rw [List.mem_singleton] at hp'
            exact Or.inr ⟨t, by simp, f, hfind, hp'⟩
      split at hp
      · exact haddCase hp
      · rcases ih _ p hp with h | ⟨t', ht', g, hg, hpg⟩
        · exact haddCase h
        · exact Or.inr ⟨t', by simp [ht'], g, hg, hpg⟩

theorem insertByDate_mem (a x : KBItem) :
    ∀ l : List KBItem, x ∈ insertByDate a l ↔ x = a ∨ x ∈ l := by
  intro l
  induction l with
  | nil => simp [insertByDate]
  | cons b bs ih =>
    simp only [insertByDate]
    split
    · simp
    · simp only [List.mem_cons, ih]
      tauto

theorem insertByDate_sorted (a : KBItem) (l : List KBItem)
    (h : List.Pairwise (fun x y => dateOf y ≤ dateOf x) l) :
    List.Pairwise (fun x y => dateOf y ≤ dateOf x) (insertByDate a l) := by
  induction l with
  | nil => simp [insertByDate]
  | cons b bs ih =>
    simp only [insertByDate]
    rw [List.pairwise_cons] at h
    obtain ⟨hb, hbs⟩ := h
    split
    · rename_i hba
      rw [List.pairwise_cons]
      refine ⟨?_, by rw [List.pairwise_cons]; exact ⟨hb, hbs⟩⟩
      intro x hx
      rcases List.mem_cons.mp hx with rfl | hx
      · exact hba
      · exact le_trans (hb x hx) hba
    · rename_i hba
      rw [List.pairwise_cons]
      refine ⟨?_, ih hbs⟩
      intro x hx
      rcases (insertByDate_mem a x bs).mp hx with rfl | hx
      · exact le_of_not_le hba
      · exact hb x hx

theorem sortByDateDesc_sorted (l : List KBItem) :
    List.Pairwise (fun x y => dateOf y ≤ dateOf x) (sortByDateDesc l) := by
  induction l with
  | nil => simp [sortByDateDesc]
  | cons a l ih =>
    simp only [sortByDateDesc, List.foldr_cons] at ih ⊢
    exact insertByDate_sorted a _ ih

theorem sortByDateDesc_mem (x : KBItem) (l : List KBItem) :
    x ∈ sortByDateDesc l ↔ x ∈ l := by
  induction l with
  | nil => simp [sortByDateDesc]
  | cons a l ih =>
    simp only [sortByDateDesc, List.foldr_cons] at ih ⊢
    rw [insertByDate_mem, ih]
    simp

theorem datedOf_has (kb : List KBItem) (h : Hints) :
    ∀ f ∈ datedOf kb h, hasDateTypeKeyB f = true := by
  intro f hf
  unfold datedOf at hf
  rw [sortByDateDesc_mem] at hf
  exact (List.mem_filter.mp hf).2

/-- C9 counterexample: with `limit = 0` and one preferred type present
in the corpus, the preferred-type pass appends its suggestion BEFORE
checking the limit, so the returned list has length 1 > 0 — the output
is not capped at the requested limit. -/
theorem suggestions_limit_counterexample :
    suggestionsOut [exFactA] hintsNone ["Opening_Check"] 0 =
      ["Opening Check for restaurant 74 on 20/09/2025"] ∧
    ¬ (suggestionsOut [exFactA] hintsNone ["Opening_Check"] 0).length ≤ 0 :=
  ⟨by decide, by decide⟩

/-- C9 amended: for every request with limit ≥ 1 the suggestions list
has no duplicate prompt strings, has length at most the limit, draws
only from Facts having all of date_iso (length ≥ 10), type and
restaurant_key, and consists of the preferred-type slots (one per
caller-preferred type in priority order, each the newest Fact of that
type) followed by a backfill that is a subsequence of the remaining
Facts in date-descending order; when the caller passes limit = 0 the
preferred-type pass may still emit one suggestion. -/
theorem suggestions_bounded (kb : List KBItem) (h : Hints)
    (preferred : List String) (limit : Nat) (hl : 1 ≤ limit) :
    (suggestionsOut kb h preferred limit).Nodup ∧
    (suggestionsOut kb h preferred limit).length ≤ limit ∧
    (∀ p ∈ suggestionsOut kb h preferred limit,
      ∃ f, f ∈ datedOf kb h ∧ hasDateTypeKeyB f = true ∧
        p = promptOf f) ∧
    (∃ rest, suggestionsOut kb h preferred limit =
        (pass1 (datedOf kb h) limit preferred ([], [])).2 ++ rest ∧
      List.Sublist rest ((datedOf kb h).map promptOf)) ∧
    (∀ p ∈ (pass1 (datedOf kb h) limit preferred ([], [])).2,
      ∃ t ∈ preferred, ∃ f,
        (datedOf kb h).find? (fun it => it.meta.type == some t) =
          some f ∧ p = promptOf f) ∧
    List.Pairwise (fun a b => dateOf b ≤ dateOf a) (datedOf kb h) := by
  have hinv1 : stInv (pass1 (datedOf kb h) limit preferred ([], [])) :=
    pass1_inv _ limit preferred ([], []) ⟨List.nodup_nil, by simp⟩
  have hinv2 : stInv (pass2 limit (datedOf kb h)
      (pass1 (datedOf kb h) limit preferred ([], []))) :=
    pass2_inv limit _ _ hinv1
  refine ⟨hinv2.1, ?_, ?_, ?_, ?_, ?_⟩
  · have h1 := pass1_len (datedOf kb h) limit preferred ([], [])
    have h2 := pass2_len limit (datedOf kb h)
      (pass1 (datedOf kb h) limit preferred ([], []))
    simp only [List.length_nil] at h1
    unfold suggestionsOut
    omega
  · intro p hp
    have he := pass2_elig limit (datedOf kb h) (datedOf kb h)
      (fun f hf => hf) (pass1 (datedOf kb h) limit preferred ([], []))
      (pass1_elig (datedOf kb h) limit preferred ([], []) (by simp))
      p hp
    obtain ⟨f, hf, hpf⟩ := he
    exact ⟨f, hf, datedOf_has kb h f hf, hpf⟩
  · exact pass2_append limit (datedOf kb h)
      (pass1 (datedOf kb h) limit preferred ([], []))
  · intro p hp
    rcases pass1_mem_src (datedOf kb h) limit preferred ([], []) p hp
      with h0 | hsome
    · simp at h0
    · exact hsome
  · exact sortByDateDesc_sorted _

/-- Witness for C9's amended theorem at limit 7 (the default) and a
one-fact corpus. -/
theorem suggestions_bounded_witness :
    suggestionsOut [exFactA] hintsNone ["Opening_Check"] 7 =
      ["Opening Check for restaurant 74 on 20/09/2025"] ∧
    (suggestionsOut [exFactA] hintsNone ["Opening_Check"] 7).Nodup ∧
    (suggestionsOut [exFactA] hintsNone ["Opening_Check"] 7).length ≤ 7 := by
  have h := suggestions_bounded [exFactA] hintsNone ["Opening_Check"] 7
    (by decide)
  exact ⟨by decide, h.1, h.2.1⟩

end SafetyChecks
